import Mathlib

/-!
Verification of the replikator reconciliation engine
(`internal/controller/secret_controller.go` and
`internal/controller/configmap_controller.go`) against its specification.

The development shallowly embeds the controller code: the cluster object
store is an explicit state (`Store`), the reconciliation loop is the pure
function `Reconcile` returning the success flag, the resulting store and
the list of store writes performed, and Go's `path/filepath.Match` glob
engine (used by the filter annotations) is translated function by function
(`scanChunk`, `matchChunk`, `getEsc`, the ranges loop).  The glob engine is
modelled at the rune level (one `Char` per rune); on the ASCII inputs the
controller handles this agrees with Go's byte/rune handling.  The loops of
`filepath.Match` are driven by a fuel parameter that strictly exceeds the
maximal call depth of the Go implementation, so the model is total and
every definition evaluates by `rfl`/`decide`.
-/

set_option autoImplicit false

namespace Replikator

/-! ## Go string helpers -/

/-- Go `strings.Split(s, ",")` on a list of characters.  Note Go's `Split`
never returns an empty slice for a non-empty separator: the empty string
splits to `[""]`. -/
def splitOnCommaL : List Char → List (List Char)
  | [] => [[]]
  | c :: rest =>
    match splitOnCommaL rest with
    | [] => [[c]]
    | g :: gs => if c = ',' then [] :: g :: gs else (c :: g) :: gs

/-- Go `strings.Split(s, ",")`. -/
def goSplitComma (s : String) : List String :=
  (splitOnCommaL s.data).map (fun l => String.mk l)

/-- ASCII case folding, the fragment of `strings.ToLower` relevant to the
`enabled` annotation values. -/
def goToLower (s : String) : String :=
  String.mk (s.data.map Char.toLower)

/-! ## `path/filepath.Match` (Go standard library, linux separator `/`) -/

/-- Function `getEsc` of `filepath.Match`: read one possibly-escaped character of a
character class.  Errors (`ErrBadPattern`) are `Except.error ()`. -/
def getEsc (chunk : List Char) : Except Unit (Char × List Char) :=
  match chunk with
  | [] => .error ()
  | c :: _ =>
    if c == '-' || c == ']' then .error ()
    else
      match (if c == '\\' then chunk.tail else chunk) with
      | [] => .error ()
      | r :: nchunk => if nchunk.isEmpty then .error () else .ok (r, nchunk)

/-- The scan loop of `scanChunk`: split the pattern at the first `*` that
is not inside a character class, keeping `\`-escapes together. -/
def scanChunkBody : List Char → Bool → List Char × List Char
  | [], _ => ([], [])
  | c :: rest, inrange =>
    if c == '\\' then
      match rest with
      | c2 :: rest2 =>
        let pr := scanChunkBody rest2 inrange
        (c :: c2 :: pr.1, pr.2)
      | [] => ([c], [])
    else if c == '[' then
      let pr := scanChunkBody rest true
      (c :: pr.1, pr.2)
    else if c == ']' then
      let pr := scanChunkBody rest false
      (c :: pr.1, pr.2)
    else if c == '*' then
      if inrange then
        let pr := scanChunkBody rest inrange
        (c :: pr.1, pr.2)
      else ([], c :: rest)
    else
      let pr := scanChunkBody rest inrange
      (c :: pr.1, pr.2)

/-- Function `scanChunk` of `filepath.Match`: strip leading `*`s, then return the
segment up to the next top-level `*`. -/
def scanChunk (p : List Char) : Bool × List Char × List Char :=
  let star := match p with
    | '*' :: _ => true
    | _ => false
  let p1 := p.dropWhile (fun c => c == '*')
  let cr := scanChunkBody p1 false
  (star, cr.1, cr.2)

/-- The range-parsing loop inside `matchChunk`'s `[` case: `r` is the rune
read from the name, `m` the match accumulator, `nrange` the number of
ranges parsed so far.  Returns the accumulator and the chunk after `]`. -/
def matchRanges : Nat → Char → List Char → Bool → Nat → Except Unit (Bool × List Char)
  | 0, _, _, _, _ => .error ()
  | fuel + 1, r, chunk, m, nrange =>
    match chunk with
    | ']' :: rest =>
      if nrange > 0 then .ok (m, rest)
      else .error ()
    | _ =>
      match getEsc chunk with
      | .error e => .error e
      | .ok (lo, ch1) =>
        match ch1 with
        | '-' :: ch2 =>
          match getEsc ch2 with
          | .error e => .error e
          | .ok (hi, ch3) =>
            matchRanges fuel r ch3 (m || (decide (lo ≤ r) && decide (r ≤ hi))) (nrange + 1)
        | _ => matchRanges fuel r ch1 (m || (decide (lo ≤ r) && decide (r ≤ lo))) (nrange + 1)

/-- Function `matchChunk` of `filepath.Match`: match a `*`-free chunk at the start
of `s`, threading Go's `failed` flag (a failed match still parses the rest
of the chunk so that malformed patterns surface as errors). -/
def matchChunk : Nat → List Char → List Char → Bool → Except Unit (List Char × Bool)
  | _, [], s, failed => if failed then .ok ([], false) else .ok (s, true)
  | 0, _ :: _, _, _ => .error ()
  | fuel + 1, c :: chunkRest, s, failed0 =>
    let failed := failed0 || s.isEmpty
    if c == '[' then
      let r := if failed then Char.ofNat 0 else s.headD (Char.ofNat 0)
      let s1 := if failed then s else s.tail
      let neg : Bool × List Char :=
        match chunkRest with
        | '^' :: t => (true, t)
        | _ => (false, chunkRest)
      match matchRanges fuel r neg.2 false 0 with
      | .error e => .error e
      | .ok mb =>
        let failed1 := if mb.1 == neg.1 then true else failed
        matchChunk fuel mb.2 s1 failed1
    else if c == '?' then
      if failed then matchChunk fuel chunkRest s failed
      else matchChunk fuel chunkRest s.tail (s.headD (Char.ofNat 0) == '/')
    else if c == '\\' then
      match chunkRest with
      | [] => .error ()
      | c2 :: chunkRest2 =>
        if failed then matchChunk fuel chunkRest2 s failed
        else matchChunk fuel chunkRest2 s.tail (!(c2 == s.headD (Char.ofNat 0)))
    else
      if failed then matchChunk fuel chunkRest s failed
      else matchChunk fuel chunkRest s.tail (!(c == s.headD (Char.ofNat 0)))

mutual

/-- The `Pattern` loop of `filepath.Match`. -/
def goMatchAux : Nat → List Char → List Char → Except Unit Bool
  | _, [], name => .ok name.isEmpty
  | 0, _ :: _, _ => .error ()
  | fuel + 1, p, name =>
    let sc := scanChunk p
    if sc.1 && sc.2.1.isEmpty then
      .ok (!(name.contains '/'))
    else
      match matchChunk fuel sc.2.1 name false with
      | .error e => .error e
      | .ok (t, ok) =>
        if ok && (t.isEmpty || !sc.2.2.isEmpty) then goMatchAux fuel sc.2.2 t
        else if sc.1 then starLoop fuel sc.2.1 sc.2.2 name
        else .ok false

/-- The inner star loop of `filepath.Match`: retry the chunk after
skipping one more character of the name (never skipping `/`). -/
def starLoop : Nat → List Char → List Char → List Char → Except Unit Bool
  | 0, _, _, _ => .error ()
  | fuel + 1, chunk, rest, name =>
    match name with
    | [] => .ok false
    | c :: nameRest =>
      if c == '/' then .ok false
      else
        match matchChunk fuel chunk nameRest false with
        | .error e => .error e
        | .ok (t, ok) =>
          if ok && !(rest.isEmpty && !t.isEmpty) then goMatchAux fuel rest t
          else starLoop fuel chunk rest nameRest

end

/-- Go `filepath.Match(pattern, name)`.  The fuel strictly dominates the call
depth of the Go implementation, so the result never depends on it. -/
def filepathMatch (pattern name : String) : Except Unit Bool :=
  goMatchAux ((pattern.length + name.length + 4) ^ 3) pattern.data name.data

/-! ## Data model

Go maps are embedded as association lists with first-match lookup and
first-match overwrite, which realises exactly the map's lookup function. -/

/-- Lookup in an association list (a Go map read `m[k]`). -/
def lookupKV : List (String × String) → String → Option String
  | [], _ => none
  | (a, b) :: rest, k => if a = k then some b else lookupKV rest k

/-- Overwrite-or-append (a Go map write `m[k] = v`). -/
def insertKV : List (String × String) → String → String → List (String × String)
  | [], k, v => [(k, v)]
  | (a, b) :: rest, k, v =>
    if a = k then (a, v) :: rest else (a, b) :: insertKV rest k v

/-- Copy all entries of `src` into `acc`, as Go's `for k, v := range src`
copy loop does. -/
def copyKVs (acc src : List (String × String)) : List (String × String) :=
  src.foldl (fun a p => insertKV a p.1 p.2) acc

/-- The fields of `corev1.Secret` (equally `corev1.ConfigMap`, whose
controller is line-for-line the same minus the TLS placeholders) that the
controller reads or writes.  `deletionTimestamp` is `true` iff the Go
`DeletionTimestamp` is non-zero; values are kept as strings. -/
structure Secret where
  name : String
  nspace : String
  annotations : List (String × String)
  labels : List (String × String)
  secretType : String
  data : List (String × String)
  finalizers : List String
  deletionTimestamp : Bool
  deriving DecidableEq

/-- Injected transient failures of the store's delete call: `notFound`
is tolerated by the controller, `other` aborts the attempt. -/
inductive StoreErr where
  | notFound
  | other
  deriving DecidableEq

/-- The cluster object store visible to one reconciliation: the namespace
list, all secrets, and the injected delete faults. -/
structure Store where
  namespaces : List String
  secrets : List Secret
  deleteFaults : List (String × String × StoreErr)
  deriving DecidableEq

/-- One write issued to the store.  `patchSource` records the finalizer
list after the patch. -/
inductive WriteOp where
  | patchSource (nspace name : String) (finalizers : List String)
  | deleteReplica (nspace name : String)
  | upsertReplica (nspace name : String)
  deriving DecidableEq

def AnnotationEnabledKey : String := "v1alpha1.replikator.gpuninja.com/enabled"

def AnnotationReplicateToKey : String := "v1alpha1.replikator.gpuninja.com/replicate-to"

def AnnotationReplicateKeysKey : String := "v1alpha1.replikator.gpuninja.com/replicate-keys"

def FinalizerName : String := "replikator.gpu-ninja.com/finalizer"

def SecretTypeTLS : String := "kubernetes.io/tls"

def TLSCertKey : String := "tls.crt"

def TLSPrivateKeyKey : String := "tls.key"

def managedByKey : String := "app.kubernetes.io/managed-by"

/-! ## Store operations -/

def getSecretL : List Secret → String → String → Option Secret
  | [], _, _ => none
  | s :: rest, a, b =>
    if s.nspace = a ∧ s.name = b then some s else getSecretL rest a b

def removeSecretL : List Secret → String → String → List Secret
  | [], _, _ => []
  | s :: rest, a, b =>
    if s.nspace = a ∧ s.name = b then removeSecretL rest a b
    else s :: removeSecretL rest a b

/-- The store read `r.Get` by (namespace, name); `none` is the not-found error. -/
def getSecret (st : Store) (a b : String) : Option Secret :=
  getSecretL st.secrets a b

/-- Unconditional upsert of an object. -/
def putSecret (st : Store) (s : Secret) : Store :=
  { st with secrets := s :: removeSecretL st.secrets s.nspace s.name }

/-- Upsert that applies Kubernetes garbage collection: an object pending
deletion whose finalizer list becomes empty is removed by the store. -/
def putSecretGC (st : Store) (s : Secret) : Store :=
  if s.deletionTimestamp && s.finalizers.isEmpty then
    { st with secrets := removeSecretL st.secrets s.nspace s.name }
  else putSecret st s

def lookupFault : List (String × String × StoreErr) → String → String → Option StoreErr
  | [], _, _ => none
  | f :: rest, a, b =>
    if f.1 = a ∧ f.2.1 = b then some f.2.2 else lookupFault rest a b

/-- The store call `r.Delete` on the object at (namespace, name). -/
def storeDelete (st : Store) (a b : String) : Except StoreErr Store :=
  match lookupFault st.deleteFaults a b with
  | some e => .error e
  | none =>
    match getSecret st a b with
    | none => .error .notFound
    | some _ => .ok { st with secrets := removeSecretL st.secrets a b }

/-! ## The reconciliation algorithm (`SecretReconciler.Reconcile`) -/

/-- The `enabled` gate: annotation present and case-insensitively
`"true"`. -/
def enabledOf (s : Secret) : Bool :=
  match lookupKV s.annotations AnnotationEnabledKey with
  | some v => goToLower v == "true"
  | none => false

/-- Key filters derived from the `replicate-keys` annotation. -/
def keyFiltersOf (s : Secret) : List String :=
  match lookupKV s.annotations AnnotationReplicateKeysKey with
  | some v => goSplitComma v
  | none => []

/-- Namespace filters derived from the `replicate-to` annotation. -/
def nsFiltersOf (s : Secret) : List String :=
  match lookupKV s.annotations AnnotationReplicateToKey with
  | some v => goSplitComma v
  | none => []

/-- The inner `for _, keyFilter := range keyFilters` loop: first matching
pattern wins, a match error aborts. -/
def firstMatch : List String → String → Except Unit Bool
  | [], _ => .ok false
  | f :: rest, k =>
    match filepathMatch f k with
    | .error e => .error e
    | .ok true => .ok true
    | .ok false => firstMatch rest k

/-- The `for key, value := range secret.Data` projection loop. -/
def projectLoop (keyFilters : List String) : List (String × String) → List (String × String) → Except Unit (List (String × String))
  | [], acc => .ok acc
  | (k, v) :: rest, acc =>
    if keyFilters.isEmpty then projectLoop keyFilters rest (insertKV acc k v)
    else
      match firstMatch keyFilters k with
      | .error e => .error e
      | .ok true => projectLoop keyFilters rest (insertKV acc k v)
      | .ok false => projectLoop keyFilters rest acc

/-- Build the replica template: name and type copied, labels copied plus
the managed-by marker, TLS placeholders pre-seeded, data projected
through the key filters.  The template carries no annotations, no
finalizers and no deletion timestamp. -/
def buildTemplate (s : Secret) : Except Unit Secret :=
  let labels := insertKV (copyKVs [] s.labels) managedByKey "replikator"
  let data0 : List (String × String) :=
    if s.secretType == SecretTypeTLS then [(TLSCertKey, ""), (TLSPrivateKeyKey, "")] else []
  match projectLoop (keyFiltersOf s) s.data data0 with
  | .error e => .error e
  | .ok d =>
    .ok { name := s.name, nspace := "", annotations := [], labels := labels,
          secretType := s.secretType, data := d, finalizers := [],
          deletionTimestamp := false }

/-- The per-namespace `replicate` decision. -/
def nsReplicate (filters : List String) (nsp : String) : Except Unit Bool :=
  if filters.isEmpty then .ok true else firstMatch filters nsp

/-- The `for _, namespace := range namespaces.Items` loop building
`desiredSecrets`. -/
def desiredList (filters : List String) (nss : List String) (srcNs : String) (tmpl : Secret) : Except Unit (List Secret) :=
  match nss with
  | [] => .ok []
  | nsp :: rest =>
    if nsp == srcNs then desiredList filters rest srcNs tmpl
    else
      match nsReplicate filters nsp with
      | .error e => .error e
      | .ok b =>
        match desiredList filters rest srcNs tmpl with
        | .error e => .error e
        | .ok l => .ok (if b then { tmpl with nspace := nsp } :: l else l)

/-- The diff `diffSecrets`: removed = existing whose namespace occurs in no desired
entry; added = desired whose namespace occurs in no existing entry. -/
def diffSecrets (existing desired : List Secret) : List Secret × List Secret :=
  (existing.filter (fun e => !(desired.any (fun d => e.nspace == d.nspace))),
   desired.filter (fun d => !(existing.any (fun e => e.nspace == d.nspace))))

/-- Discovery of existing replicas: one `Get` per namespace other than the
source's own, not-found skipped. -/
def discover (st : Store) (s : Secret) : List Secret :=
  (st.namespaces.filter (fun nsp => nsp != s.nspace)).filterMap
    (fun nsp => getSecret st nsp s.name)

/-- The finalizer-attach step (`controllerutil.CreateOrPatch` +
`AddFinalizer`): returns the in-memory secret, the store and the writes. -/
def finalizeStep (st : Store) (s : Secret) : Secret × Store × List WriteOp :=
  if FinalizerName ∈ s.finalizers then (s, st, [])
  else
    let s1 := { s with finalizers := s.finalizers ++ [FinalizerName] }
    (s1, putSecretGC st s1, [WriteOp.patchSource s1.nspace s1.name s1.finalizers])

/-- The replica-delete loop shared by the deletion branch and the
converge step: not-found is tolerated, any other error aborts. -/
def deleteAll : List Secret → Store → List WriteOp → Bool × Store × List WriteOp
  | [], st, w => (true, st, w)
  | r :: rest, st, w =>
    match storeDelete st r.nspace r.name with
    | .ok st' => deleteAll rest st' (w ++ [WriteOp.deleteReplica r.nspace r.name])
    | .error .notFound => deleteAll rest st w
    | .error .other => (false, st, w)

/-- The upsert loop (`updater.CreateOrUpdateFromTemplate`): full overwrite
from the template. -/
def upsertAll : List Secret → Store → List WriteOp → Store × List WriteOp
  | [], st, w => (st, w)
  | d :: rest, st, w =>
    upsertAll rest (putSecret st d) (w ++ [WriteOp.upsertReplica d.nspace d.name])

/-- The deletion branch: delete every discovered replica, then remove the
finalizer (`controllerutil.RemoveFinalizer` drops every occurrence). -/
def teardown (st : Store) (s : Secret) (existing : List Secret) (w : List WriteOp) : Bool × Store × List WriteOp :=
  match deleteAll existing st w with
  | (true, st2, w2) =>
    if FinalizerName ∈ s.finalizers then
      let s2 := { s with finalizers := s.finalizers.filter (fun f => f != FinalizerName) }
      (true, putSecretGC st2 s2, w2 ++ [WriteOp.patchSource s2.nspace s2.name s2.finalizers])
    else (true, st2, w2)
  | (false, st2, w2) => (false, st2, w2)

/-- The converge step: project, compute desired, diff, delete removed,
upsert added. -/
def converge (st : Store) (s : Secret) (existing : List Secret) (w : List WriteOp) : Bool × Store × List WriteOp :=
  match buildTemplate s with
  | .error _ => (false, st, w)
  | .ok template =>
    match desiredList (nsFiltersOf s) st.namespaces s.nspace template with
    | .error _ => (false, st, w)
    | .ok desired =>
      let rd := diffSecrets existing desired
      match deleteAll rd.1 st w with
      | (false, st2, w2) => (false, st2, w2)
      | (true, st2, w2) =>
        let uw := upsertAll rd.2 st2 w2
        (true, uw.1, uw.2)

/-- One run of `SecretReconciler.Reconcile` for the request
(`reqNs`, `reqName`): returns the success flag, the store after the run
and the list of writes issued, in order. -/
def Reconcile (st : Store) (reqNs reqName : String) : Bool × Store × List WriteOp :=
  match getSecret st reqNs reqName with
  | none => (true, st, [])
  | some secret0 =>
    if enabledOf secret0 then
      let fs := finalizeStep st secret0
      let existing := discover fs.2.1 fs.1
      if fs.1.deletionTimestamp then teardown fs.2.1 fs.1 existing fs.2.2
      else converge fs.2.1 fs.1 existing fs.2.2
    else (true, st, [])

/-! ## The namespace-creation trigger (`SetupWithManager`'s map function) -/

/-- A namespace object as seen by the watch handler. -/
structure NamespaceObj where
  name : String
  deletionTimestamp : Bool
  deriving DecidableEq

/-- The `EnqueueRequestsFromMapFunc` handler: ignore deletions, else
enqueue a request (namespace, name) for every secret in the store. -/
def mapNamespaceEvent (st : Store) (nsObj : NamespaceObj) : List (String × String) :=
  if nsObj.deletionTimestamp then []
  else st.secrets.map (fun s => (s.nspace, s.name))

/-! ## Association-list lemmas -/

theorem lookupKV_insertKV_self (l : List (String × String)) (k v : String) :
    lookupKV (insertKV l k v) k = some v := by
  induction l with
  | nil => simp [insertKV, lookupKV]
  | cons p rest ih =>
    obtain ⟨a, b⟩ := p
    by_cases h : a = k
    · simp [insertKV, lookupKV, h]
    · simpa [insertKV, lookupKV, h] using ih

theorem lookupKV_insertKV_ne (l : List (String × String)) (k v k' : String) (h : k' ≠ k) :
    lookupKV (insertKV l k v) k' = lookupKV l k' := by
  induction l with
  | nil =>
    simp only [insertKV, lookupKV]
    rw [if_neg (fun hh : k = k' => h hh.symm)]
  | cons p rest ih =>
    obtain ⟨a, b⟩ := p
    by_cases ha : a = k
    · subst ha
      have e1 : insertKV ((a, b) :: rest) a v = (a, v) :: rest := by simp [insertKV]
      rw [e1]
      have hne : ¬ a = k' := fun hh => h hh.symm
      simp [lookupKV, hne]
    · have e1 : insertKV ((a, b) :: rest) k v = (a, b) :: insertKV rest k v := by
        simp [insertKV, ha]
      rw [e1]
      by_cases ha' : a = k'
      · simp [lookupKV, ha']
      · simp [lookupKV, ha', ih]

theorem lookupKV_insertKV_isSome (l : List (String × String)) (k v k' : String)
    (h : (lookupKV l k').isSome) : (lookupKV (insertKV l k v) k').isSome := by
  by_cases hk : k' = k
  · subst hk; simp [lookupKV_insertKV_self]
  · rwa [lookupKV_insertKV_ne l k v k' hk]

theorem lookupKV_eq_none_of_not_mem (l : List (String × String)) (k : String)
    (h : ∀ v, (k, v) ∉ l) : lookupKV l k = none := by
  induction l with
  | nil => rfl
  | cons p rest ih =>
    obtain ⟨a, b⟩ := p
    have ha : a ≠ k := by
      intro hk
      exact h b (by simp [hk])
    simp only [lookupKV, ha, if_false]
    exact ih (fun v hv => h v (List.mem_cons_of_mem _ hv))

theorem lookupKV_copyKVs (src : List (String × String)) (acc : List (String × String))
    (k : String) (hnd : (src.map Prod.fst).Nodup) :
    lookupKV (copyKVs acc src) k =
      ((lookupKV src k).rec (lookupKV acc k) (fun v => some v)) := by
  induction src generalizing acc with
  | nil => simp [copyKVs, lookupKV]
  | cons p rest ih =>
    obtain ⟨a, b⟩ := p
    simp only [List.map_cons, List.nodup_cons] at hnd
    have hfold : copyKVs acc ((a, b) :: rest) = copyKVs (insertKV acc a b) rest := rfl
    rw [hfold, ih (insertKV acc a b) hnd.2]
    by_cases hk : a = k
    · subst hk
      have hnone : lookupKV rest a = none := by
        apply lookupKV_eq_none_of_not_mem
        intro v hv
        exact hnd.1 (List.mem_map_of_mem Prod.fst hv)
      simp [lookupKV, hnone, lookupKV_insertKV_self]
    · simp only [lookupKV, hk, if_false]
      cases hr : lookupKV rest k with
      | some v => simp
      | none => simp [lookupKV_insertKV_ne acc a b k (fun hh => hk hh.symm)]

/-! ## Store lemmas -/

theorem getSecretL_some {l : List Secret} {a b : String} {s : Secret}
    (h : getSecretL l a b = some s) : s.nspace = a ∧ s.name = b := by
  induction l with
  | nil => simp [getSecretL] at h
  | cons x rest ih =>
    by_cases hx : x.nspace = a ∧ x.name = b
    · simp only [getSecretL, if_pos hx] at h
      cases h
      exact hx
    · simp only [getSecretL, if_neg hx] at h
      exact ih h

theorem getSecret_some {st : Store} {a b : String} {s : Secret}
    (h : getSecret st a b = some s) : s.nspace = a ∧ s.name = b :=
  getSecretL_some h

theorem getSecretL_removeSecretL_self (l : List Secret) (a b : String) :
    getSecretL (removeSecretL l a b) a b = none := by
  induction l with
  | nil => rfl
  | cons x rest ih =>
    by_cases hx : x.nspace = a ∧ x.name = b
    · simpa [removeSecretL, hx] using ih
    · simpa [removeSecretL, getSecretL, hx] using ih

theorem getSecretL_removeSecretL_ne (l : List Secret) (a b c d : String)
    (h : ¬(a = c ∧ b = d)) :
    getSecretL (removeSecretL l c d) a b = getSecretL l a b := by
  induction l with
  | nil => rfl
  | cons x rest ih =>
    by_cases hx : x.nspace = c ∧ x.name = d
    · have hxp : ¬(x.nspace = a ∧ x.name = b) := by
        rintro ⟨h1, h2⟩
        exact h ⟨h1 ▸ hx.1.symm ▸ rfl, h2 ▸ hx.2.symm ▸ rfl⟩
      simp only [removeSecretL, if_pos hx, getSecretL, if_neg hxp]
      exact ih
    · by_cases hxp : x.nspace = a ∧ x.name = b
      · simp only [removeSecretL, if_neg hx, getSecretL, if_pos hxp]
      · simp only [removeSecretL, if_neg hx, getSecretL, if_neg hxp]
        exact ih

theorem getSecret_putSecret_self (st : Store) (x : Secret) :
    getSecret (putSecret st x) x.nspace x.name = some x := by
  simp [getSecret, putSecret, getSecretL]

theorem getSecret_putSecret_ne (st : Store) (x : Secret) (a b : String)
    (h : ¬(a = x.nspace ∧ b = x.name)) :
    getSecret (putSecret st x) a b = getSecret st a b := by
  have hxp : ¬(x.nspace = a ∧ x.name = b) := by
    rintro ⟨h1, h2⟩
    exact h ⟨h1.symm, h2.symm⟩
  simp only [getSecret, putSecret, getSecretL, if_neg hxp]
  exact getSecretL_removeSecretL_ne st.secrets a b x.nspace x.name h

theorem putSecret_namespaces (st : Store) (x : Secret) :
    (putSecret st x).namespaces = st.namespaces := rfl

theorem putSecret_deleteFaults (st : Store) (x : Secret) :
    (putSecret st x).deleteFaults = st.deleteFaults := rfl

theorem putSecretGC_namespaces (st : Store) (x : Secret) :
    (putSecretGC st x).namespaces = st.namespaces := by
  unfold putSecretGC
  split <;> rfl

theorem putSecretGC_deleteFaults (st : Store) (x : Secret) :
    (putSecretGC st x).deleteFaults = st.deleteFaults := by
  unfold putSecretGC
  split <;> rfl

theorem getSecret_putSecretGC_ne (st : Store) (x : Secret) (a b : String)
    (h : ¬(a = x.nspace ∧ b = x.name)) :
    getSecret (putSecretGC st x) a b = getSecret st a b := by
  unfold putSecretGC
  split
  · exact getSecretL_removeSecretL_ne st.secrets a b x.nspace x.name h
  · exact getSecret_putSecret_ne st x a b h

theorem lookupFault_nil (a b : String) : lookupFault [] a b = none := rfl

/-! ## Secret-shape lemmas -/

theorem secret_eta (s : Secret) : { s with finalizers := s.finalizers } = s := rfl

theorem enabledOf_set_finalizers (s : Secret) (fl : List String) :
    enabledOf { s with finalizers := fl } = enabledOf s := rfl

theorem buildTemplate_set_finalizers (s : Secret) (fl : List String) :
    buildTemplate { s with finalizers := fl } = buildTemplate s := rfl

theorem nsFiltersOf_set_finalizers (s : Secret) (fl : List String) :
    nsFiltersOf { s with finalizers := fl } = nsFiltersOf s := rfl

/-- Step `finalizeStep` only extends the finalizer list; everything else of the
in-memory secret is unchanged, and afterwards the finalizer is present. -/
theorem finalizeStep_fst (st : Store) (s : Secret) :
    ∃ fl, (finalizeStep st s).1 = { s with finalizers := fl } ∧
      FinalizerName ∈ fl := by
  unfold finalizeStep
  by_cases h : FinalizerName ∈ s.finalizers
  · exact ⟨s.finalizers, by simp [h, secret_eta], h⟩
  · exact ⟨s.finalizers ++ [FinalizerName], by simp [h], by simp⟩

theorem finalizeStep_namespaces (st : Store) (s : Secret) :
    (finalizeStep st s).2.1.namespaces = st.namespaces := by
  unfold finalizeStep
  split
  · rfl
  · exact putSecretGC_namespaces _ _

theorem finalizeStep_deleteFaults (st : Store) (s : Secret) :
    (finalizeStep st s).2.1.deleteFaults = st.deleteFaults := by
  unfold finalizeStep
  split
  · rfl
  · exact putSecretGC_deleteFaults _ _

/-- If the finalizer is already present, the step is a no-op. -/
theorem finalizeStep_already (st : Store) (s : Secret)
    (h : FinalizerName ∈ s.finalizers) : finalizeStep st s = (s, st, []) := by
  simp [finalizeStep, h]

/-- After `finalizeStep`, fetching the source returns the in-memory
secret (whose deletion timestamp cannot see its finalizer list empty,
since the finalizer was just added). -/
theorem finalizeStep_getSecret (st : Store) (s : Secret)
    (hget : getSecret st s.nspace s.name = some s) :
    getSecret (finalizeStep st s).2.1 s.nspace s.name = some (finalizeStep st s).1 := by
  unfold finalizeStep
  by_cases h : FinalizerName ∈ s.finalizers
  · simpa [h] using hget
  · have hne : ({ s with finalizers := s.finalizers ++ [FinalizerName] } : Secret).finalizers ≠ [] := by
      simp
    simp only [h, if_false]
    unfold putSecretGC
    rw [if_neg (by simp)]
    exact getSecret_putSecret_self st _

/-! ## Delete-loop lemmas -/

theorem storeDelete_ok {st : Store} {a b : String} {st' : Store}
    (h : storeDelete st a b = .ok st') :
    st' = { st with secrets := removeSecretL st.secrets a b } := by
  unfold storeDelete at h
  cases hf : lookupFault st.deleteFaults a b with
  | some e => rw [hf] at h; simp at h
  | none =>
    rw [hf] at h
    cases hg : getSecret st a b with
    | none => rw [hg] at h; simp at h
    | some s =>
      rw [hg] at h
      exact (Except.ok.injEq _ _ ▸ h).symm

theorem deleteAll_namespaces (L : List Secret) (st : Store) (w : List WriteOp) :
    (deleteAll L st w).2.1.namespaces = st.namespaces := by
  induction L generalizing st w with
  | nil => rfl
  | cons r rest ih =>
    simp only [deleteAll]
    cases hd : storeDelete st r.nspace r.name with
    | ok st' =>
      rw [storeDelete_ok hd]
      exact ih _ _
    | error e =>
      cases e
      · exact ih st w
      · rfl

theorem deleteAll_deleteFaults (L : List Secret) (st : Store) (w : List WriteOp) :
    (deleteAll L st w).2.1.deleteFaults = st.deleteFaults := by
  induction L generalizing st w with
  | nil => rfl
  | cons r rest ih =>
    simp only [deleteAll]
    cases hd : storeDelete st r.nspace r.name with
    | ok st' =>
      rw [storeDelete_ok hd]
      exact ih _ _
    | error e =>
      cases e
      · exact ih st w
      · rfl

/-- Keys not listed for deletion are untouched, whatever the outcome. -/
theorem deleteAll_getSecret_other (L : List Secret) (st : Store) (w : List WriteOp)
    (a b : String) (h : ∀ r ∈ L, ¬(r.nspace = a ∧ r.name = b)) :
    getSecret (deleteAll L st w).2.1 a b = getSecret st a b := by
  induction L generalizing st w with
  | nil => rfl
  | cons r rest ih =>
    have hr := h r (by simp)
    have hrest : ∀ r' ∈ rest, ¬(r'.nspace = a ∧ r'.name = b) :=
      fun r' hm => h r' (List.mem_cons_of_mem _ hm)
    simp only [deleteAll]
    cases hd : storeDelete st r.nspace r.name with
    | ok st' =>
      rw [storeDelete_ok hd, ih _ _ hrest]
      exact getSecretL_removeSecretL_ne st.secrets a b r.nspace r.name
        (by rintro ⟨h1, h2⟩; exact hr ⟨h1.symm, h2.symm⟩)
    | error e =>
      cases e
      · exact ih st w hrest
      · rfl

/-- With no injected fault on any listed key, the delete loop never
aborts (absent keys surface as tolerated not-found errors). -/
theorem deleteAll_ok_of_no_faults (L : List Secret) (st : Store) (w : List WriteOp)
    (hf : ∀ r ∈ L, lookupFault st.deleteFaults r.nspace r.name = none) :
    (deleteAll L st w).1 = true := by
  induction L generalizing st w with
  | nil => rfl
  | cons r rest ih =>
    have hfr := hf r (by simp)
    have hfrest : ∀ r' ∈ rest, lookupFault st.deleteFaults r'.nspace r'.name = none :=
      fun r' hm => hf r' (List.mem_cons_of_mem _ hm)
    simp only [deleteAll]
    cases hd : storeDelete st r.nspace r.name with
    | ok st' =>
      rw [storeDelete_ok hd]
      exact ih _ _ hfrest
    | error e =>
      cases e
      · exact ih st w hfrest
      · exfalso
        unfold storeDelete at hd
        rw [hfr] at hd
        cases hg : getSecret st r.nspace r.name <;> rw [hg] at hd <;> simp at hd

/-- With no injected fault on any listed key, a key listed for deletion
is gone afterwards. -/
theorem deleteAll_getSecret_mem (L : List Secret) (st : Store) (w : List WriteOp)
    (a b : String)
    (hf : ∀ r ∈ L, lookupFault st.deleteFaults r.nspace r.name = none)
    (h : ∃ r ∈ L, r.nspace = a ∧ r.name = b) :
    getSecret (deleteAll L st w).2.1 a b = none := by
  induction L generalizing st w with
  | nil => simp at h
  | cons r rest ih =>
    have hfr := hf r (by simp)
    have hfrest : ∀ r' ∈ rest, lookupFault st.deleteFaults r'.nspace r'.name = none :=
      fun r' hm => hf r' (List.mem_cons_of_mem _ hm)
    simp only [deleteAll]
    by_cases hrest : ∃ r' ∈ rest, r'.nspace = a ∧ r'.name = b
    · cases hd : storeDelete st r.nspace r.name with
      | ok st' =>
        rw [storeDelete_ok hd]
        exact ih _ _ hfrest hrest
      | error e =>
        cases e
        · exact ih st w hfrest hrest
        · exfalso
          unfold storeDelete at hd
          rw [hfr] at hd
          cases hg : getSecret st r.nspace r.name <;> rw [hg] at hd <;> simp at hd
    · have hrkey : r.nspace = a ∧ r.name = b := by
        rcases h with ⟨r', hr', hk⟩
        rcases List.mem_cons.mp hr' with rfl | hm
        · exact hk
        · exact absurd ⟨r', hm, hk⟩ hrest
      have hother : ∀ r' ∈ rest, ¬(r'.nspace = a ∧ r'.name = b) :=
        fun r' hm hk => hrest ⟨r', hm, hk⟩
      cases hd : storeDelete st r.nspace r.name with
      | ok st' =>
        rw [storeDelete_ok hd, deleteAll_getSecret_other rest _ _ a b hother]
        show getSecretL (removeSecretL st.secrets r.nspace r.name) a b = none
        rw [hrkey.1, hrkey.2]
        exact getSecretL_removeSecretL_self st.secrets a b
      | error e =>
        cases e
        · rw [deleteAll_getSecret_other rest st w a b hother]
          unfold storeDelete at hd
          rw [hfr] at hd
          cases hg : getSecret st r.nspace r.name with
          | none => rw [← hrkey.1, ← hrkey.2]; exact hg
          | some s => rw [hg] at hd; simp at hd
        · exfalso
          unfold storeDelete at hd
          rw [hfr] at hd
          cases hg : getSecret st r.nspace r.name <;> rw [hg] at hd <;> simp at hd

/-- Not-found faults are tolerated: only a transient fault can abort the
loop. -/
theorem deleteAll_ok_of_no_transient (L : List Secret) (st : Store) (w : List WriteOp)
    (hf : ∀ r ∈ L, lookupFault st.deleteFaults r.nspace r.name ≠ some .other) :
    (deleteAll L st w).1 = true := by
  induction L generalizing st w with
  | nil => rfl
  | cons r rest ih =>
    have hfr := hf r (by simp)
    have hfrest : ∀ r' ∈ rest, lookupFault st.deleteFaults r'.nspace r'.name ≠ some .other :=
      fun r' hm => hf r' (List.mem_cons_of_mem _ hm)
    simp only [deleteAll]
    cases hd : storeDelete st r.nspace r.name with
    | ok st' =>
      rw [storeDelete_ok hd]
      exact ih _ _ hfrest
    | error e =>
      cases e
      · exact ih st w hfrest
      · exfalso
        unfold storeDelete at hd
        cases hl : lookupFault st.deleteFaults r.nspace r.name with
        | some e' => exact hfr (by rw [hl, show e' = StoreErr.other by
            rw [hl] at hd
            cases e' <;> simp_all])
        | none =>
          rw [hl] at hd
          cases hg : getSecret st r.nspace r.name <;> rw [hg] at hd <;> simp at hd

/-- A transient (non-not-found) fault on some listed replica aborts the
loop. -/
theorem deleteAll_false_of_fault (L : List Secret) (st : Store) (w : List WriteOp)
    (h : ∃ r ∈ L, lookupFault st.deleteFaults r.nspace r.name = some .other) :
    (deleteAll L st w).1 = false := by
  induction L generalizing st w with
  | nil => simp at h
  | cons r rest ih =>
    simp only [deleteAll]
    by_cases hr : lookupFault st.deleteFaults r.nspace r.name = some .other
    · have : storeDelete st r.nspace r.name = .error .other := by
        unfold storeDelete
        rw [hr]
      rw [this]
    · have hrest : ∃ r' ∈ rest, lookupFault st.deleteFaults r'.nspace r'.name = some .other := by
        rcases h with ⟨r', hm, hk⟩
        rcases List.mem_cons.mp hm with rfl | hm'
        · exact absurd hk hr
        · exact ⟨r', hm', hk⟩
      cases hd : storeDelete st r.nspace r.name with
      | ok st' =>
        rw [storeDelete_ok hd]
        exact ih _ _ hrest
      | error e =>
        cases e
        · exact ih st w hrest
        · rfl

/-- The delete loop only appends replica-delete writes. -/
theorem deleteAll_writes (L : List Secret) (st : Store) (w : List WriteOp) :
    ∃ w', (deleteAll L st w).2.2 = w ++ w' ∧
      ∀ op ∈ w', ∃ a b, op = WriteOp.deleteReplica a b := by
  induction L generalizing st w with
  | nil => exact ⟨[], by simp [deleteAll], by simp⟩
  | cons r rest ih =>
    simp only [deleteAll]
    cases hd : storeDelete st r.nspace r.name with
    | ok st' =>
      obtain ⟨w', hw, hall⟩ := ih st' (w ++ [WriteOp.deleteReplica r.nspace r.name])
      refine ⟨WriteOp.deleteReplica r.nspace r.name :: w', ?_, ?_⟩
      · rw [hw, List.append_assoc]
        rfl
      · intro op hop
        rcases List.mem_cons.mp hop with rfl | hm
        · exact ⟨r.nspace, r.name, rfl⟩
        · exact hall op hm
    | error e =>
      cases e
      · exact ih st w
      · exact ⟨[], by simp, by simp⟩

/-! ## Upsert-loop lemmas -/

theorem upsertAll_namespaces (L : List Secret) (st : Store) (w : List WriteOp) :
    (upsertAll L st w).1.namespaces = st.namespaces := by
  induction L generalizing st w with
  | nil => rfl
  | cons d rest ih => simpa [upsertAll] using ih _ _

theorem upsertAll_deleteFaults (L : List Secret) (st : Store) (w : List WriteOp) :
    (upsertAll L st w).1.deleteFaults = st.deleteFaults := by
  induction L generalizing st w with
  | nil => rfl
  | cons d rest ih => simpa [upsertAll] using ih _ _

theorem upsertAll_get_not_mem (L : List Secret) (st : Store) (w : List WriteOp)
    (a b : String) (h : ∀ d ∈ L, ¬(d.nspace = a ∧ d.name = b)) :
    getSecret (upsertAll L st w).1 a b = getSecret st a b := by
  induction L generalizing st w with
  | nil => rfl
  | cons d rest ih =>
    have hd := h d (by simp)
    have hrest : ∀ d' ∈ rest, ¬(d'.nspace = a ∧ d'.name = b) :=
      fun d' hm => h d' (List.mem_cons_of_mem _ hm)
    simp only [upsertAll]
    rw [ih _ _ hrest]
    exact getSecret_putSecret_ne st d a b (by rintro ⟨h1, h2⟩; exact hd ⟨h1.symm, h2.symm⟩)

theorem upsertAll_get_mem (L : List Secret) (st : Store) (w : List WriteOp)
    (d : Secret) (hd : d ∈ L)
    (huniq : ∀ d' ∈ L, d'.nspace = d.nspace → d'.name = d.name → d' = d) :
    getSecret (upsertAll L st w).1 d.nspace d.name = some d := by
  induction L generalizing st w with
  | nil => simp at hd
  | cons x rest ih =>
    have huniq' : ∀ d' ∈ rest, d'.nspace = d.nspace → d'.name = d.name → d' = d :=
      fun d' hm => huniq d' (List.mem_cons_of_mem _ hm)
    simp only [upsertAll]
    by_cases hrest : ∃ d' ∈ rest, d'.nspace = d.nspace ∧ d'.name = d.name
    · obtain ⟨d', hm, h1, h2⟩ := hrest
      have : d' = d := huniq' d' hm h1 h2
      subst this
      exact ih (putSecret st x) _ hm huniq'
    · rcases List.mem_cons.mp hd with rfl | hm
      · have hnone : ∀ d' ∈ rest, ¬(d'.nspace = d.nspace ∧ d'.name = d.name) :=
          fun d' hm hk => hrest ⟨d', hm, hk⟩
        rw [upsertAll_get_not_mem rest _ _ _ _ hnone]
        exact getSecret_putSecret_self st d
      · exact absurd ⟨d, hm, rfl, rfl⟩ hrest

/-! ## Discovery, desired-set and diff lemmas -/

theorem discover_mem {st : Store} {s : Secret} {e : Secret} :
    e ∈ discover st s ↔
      ∃ nsp, nsp ∈ st.namespaces ∧ nsp ≠ s.nspace ∧ getSecret st nsp s.name = some e := by
  simp only [discover, List.mem_filterMap, List.mem_filter, bne_iff_ne]
  constructor
  · rintro ⟨nsp, ⟨hmem, hne⟩, hget⟩
    exact ⟨nsp, hmem, hne, hget⟩
  · rintro ⟨nsp, hmem, hne, hget⟩
    exact ⟨nsp, ⟨hmem, hne⟩, hget⟩

theorem discover_mem_props {st : Store} {s : Secret} {e : Secret}
    (h : e ∈ discover st s) :
    e.nspace ≠ s.nspace ∧ e.name = s.name ∧ e.nspace ∈ st.namespaces ∧
      getSecret st e.nspace s.name = some e := by
  obtain ⟨nsp, hmem, hne, hget⟩ := discover_mem.mp h
  obtain ⟨h1, h2⟩ := getSecret_some hget
  subst h1
  exact ⟨hne, h2, hmem, hget⟩

theorem desiredList_ok_mem {fl : List String} {nss : List String} {srcNs : String}
    {tmpl : Secret} {L : List Secret}
    (h : desiredList fl nss srcNs tmpl = .ok L) (d : Secret) :
    d ∈ L ↔ ∃ nsp, nsp ∈ nss ∧ nsp ≠ srcNs ∧ nsReplicate fl nsp = .ok true ∧
      d = { tmpl with nspace := nsp } := by
  induction nss generalizing L with
  | nil =>
    simp only [desiredList] at h
    cases h
    simp
  | cons nsp rest ih =>
    by_cases hsrc : nsp = srcNs
    · rw [show desiredList fl (nsp :: rest) srcNs tmpl = desiredList fl rest srcNs tmpl by
        simp [desiredList, hsrc]] at h
      rw [ih h]
      constructor
      · rintro ⟨n, hmem, hne, hadm, hd⟩
        exact ⟨n, List.mem_cons_of_mem _ hmem, hne, hadm, hd⟩
      · rintro ⟨n, hmem, hne, hadm, hd⟩
        rcases List.mem_cons.mp hmem with rfl | hm
        · exact absurd hsrc hne
        · exact ⟨n, hm, hne, hadm, hd⟩
    · rw [show desiredList fl (nsp :: rest) srcNs tmpl =
          (match nsReplicate fl nsp with
           | .error e => .error e
           | .ok b =>
             match desiredList fl rest srcNs tmpl with
             | .error e => .error e
             | .ok l => .ok (if b then { tmpl with nspace := nsp } :: l else l)) by
        simp [desiredList, hsrc]] at h
      cases hadm : nsReplicate fl nsp with
      | error e => rw [hadm] at h; simp at h
      | ok b =>
        rw [hadm] at h
        cases hrest : desiredList fl rest srcNs tmpl with
        | error e => rw [hrest] at h; simp at h
        | ok l =>
          rw [hrest] at h
          have hL : L = if b then { tmpl with nspace := nsp } :: l else l := by
            cases h; rfl
          subst hL
          cases b with
          | true =>
            simp only [if_true]
            constructor
            · intro hm
              rcases List.mem_cons.mp hm with rfl | hm'
              · exact ⟨nsp, by simp, hsrc, hadm, rfl⟩
              · obtain ⟨n, hmem, hne, hadm', hd⟩ := (ih hrest).mp hm'
                exact ⟨n, List.mem_cons_of_mem _ hmem, hne, hadm', hd⟩
            · rintro ⟨n, hmem, hne, hadm', hd⟩
              rcases List.mem_cons.mp hmem with rfl | hm'
              · rw [hd]
                exact List.mem_cons_self _ _
              · exact List.mem_cons_of_mem _ ((ih hrest).mpr ⟨n, hm', hne, hadm', hd⟩)
          | false =>
            rw [if_neg (by simp), ih hrest]
            constructor
            · rintro ⟨n, hmem, hne, hadm', hd⟩
              exact ⟨n, List.mem_cons_of_mem _ hmem, hne, hadm', hd⟩
            · rintro ⟨n, hmem, hne, hadm', hd⟩
              rcases List.mem_cons.mp hmem with rfl | hm'
              · rw [hadm] at hadm'
                cases hadm'
              · exact ⟨n, hm', hne, hadm', hd⟩

theorem diffSecrets_fst_mem (existing desired : List Secret) (e : Secret) :
    e ∈ (diffSecrets existing desired).1 ↔
      e ∈ existing ∧ ∀ d ∈ desired, e.nspace ≠ d.nspace := by
  simp [diffSecrets, List.mem_filter, List.any_eq_true]

theorem diffSecrets_snd_mem (existing desired : List Secret) (d : Secret) :
    d ∈ (diffSecrets existing desired).2 ↔
      d ∈ desired ∧ ∀ e ∈ existing, e.nspace ≠ d.nspace := by
  simp [diffSecrets, List.mem_filter, List.any_eq_true]

/-! ## Reconcile shape lemmas -/

theorem enabledOf_eq_false {s : Secret}
    (h : ∀ v, lookupKV s.annotations AnnotationEnabledKey = some v → goToLower v ≠ "true") :
    enabledOf s = false := by
  unfold enabledOf
  cases hl : lookupKV s.annotations AnnotationEnabledKey with
  | none => rfl
  | some v => simpa using h v hl

theorem enabledOf_eq_true {s : Secret} {v : String}
    (hl : lookupKV s.annotations AnnotationEnabledKey = some v)
    (hv : goToLower v = "true") : enabledOf s = true := by
  unfold enabledOf
  rw [hl]
  simp [hv]

theorem finalizeStep_deletionTimestamp (st : Store) (s : Secret) :
    (finalizeStep st s).1.deletionTimestamp = s.deletionTimestamp := by
  unfold finalizeStep
  split <;> rfl

theorem Reconcile_not_found {st : Store} {reqNs reqName : String}
    (h : getSecret st reqNs reqName = none) :
    Reconcile st reqNs reqName = (true, st, []) := by
  simp [Reconcile, h]

theorem Reconcile_disabled {st : Store} {reqNs reqName : String} {s : Secret}
    (hget : getSecret st reqNs reqName = some s) (hdis : enabledOf s = false) :
    Reconcile st reqNs reqName = (true, st, []) := by
  simp [Reconcile, hget, hdis]

theorem Reconcile_converge_shape {st : Store} {reqNs reqName : String} {s : Secret}
    (hget : getSecret st reqNs reqName = some s) (hen : enabledOf s = true)
    (hdel : s.deletionTimestamp = false) :
    Reconcile st reqNs reqName =
      converge (finalizeStep st s).2.1 (finalizeStep st s).1
        (discover (finalizeStep st s).2.1 (finalizeStep st s).1)
        (finalizeStep st s).2.2 := by
  simp [Reconcile, hget, hen, finalizeStep_deletionTimestamp, hdel]

theorem Reconcile_teardown_shape {st : Store} {reqNs reqName : String} {s : Secret}
    (hget : getSecret st reqNs reqName = some s) (hen : enabledOf s = true)
    (hdel : s.deletionTimestamp = true) :
    Reconcile st reqNs reqName =
      teardown (finalizeStep st s).2.1 (finalizeStep st s).1
        (discover (finalizeStep st s).2.1 (finalizeStep st s).1)
        (finalizeStep st s).2.2 := by
  simp [Reconcile, hget, hen, finalizeStep_deletionTimestamp, hdel]

/-! ## Claim C4 -/

/-- C4: a source whose `enabled` annotation is absent or not
case-insensitively `"true"` reconciles to terminal success with no store
writes at all: the result flag is true, the store (hence the finalizer
list and every replica) is returned unchanged, and the write list is
empty. -/
theorem c4_gate_no_writes (st : Store) (reqNs reqName : String) (s : Secret)
    (hget : getSecret st reqNs reqName = some s)
    (hdis : ∀ v, lookupKV s.annotations AnnotationEnabledKey = some v → goToLower v ≠ "true") :
    Reconcile st reqNs reqName = (true, st, []) :=
  Reconcile_disabled hget (enabledOf_eq_false hdis)

def srcC4 : Secret :=
  { name := "s", nspace := "default", annotations := [], labels := [],
    secretType := "Opaque", data := [("k", "v")],
    finalizers := [], deletionTimestamp := false }

def stC4 : Store :=
  { namespaces := ["default", "other"], secrets := [srcC4], deleteFaults := [] }

theorem c4_gate_no_writes_witness : Reconcile stC4 "default" "s" = (true, stC4, []) :=
  c4_gate_no_writes stC4 "default" "s" srcC4 (by rfl)
    (by intro v h; simp [srcC4, lookupKV] at h)

/-! ## Claim C9 -/

/-- C9: a namespace-creation event (namespace object with zero deletion
timestamp) produces a reconciliation request for every currently enabled
source object — the handler in fact enqueues every source of the kind,
so in particular every enabled one. -/
theorem c9_namespace_fanout (st : Store) (nsObj : NamespaceObj) (s : Secret)
    (hts : nsObj.deletionTimestamp = false)
    (hmem : s ∈ st.secrets) (_hen : enabledOf s = true) :
    (s.nspace, s.name) ∈ mapNamespaceEvent st nsObj := by
  simp only [mapNamespaceEvent, hts, if_neg Bool.false_ne_true, List.mem_map]
  exact ⟨s, hmem, rfl⟩

def srcC9 : Secret :=
  { name := "s", nspace := "default",
    annotations := [(AnnotationEnabledKey, "true")], labels := [],
    secretType := "Opaque", data := [], finalizers := [], deletionTimestamp := false }

theorem c9_namespace_fanout_witness :
    ("default", "s") ∈ mapNamespaceEvent
      { namespaces := ["default"], secrets := [srcC9], deleteFaults := [] }
      { name := "new-ns", deletionTimestamp := false } :=
  c9_namespace_fanout _ _ srcC9 rfl (by simp) (by rfl)

/-! ## Claim C3 -/

def nsOnly (nsp : String) : Secret :=
  { name := "s", nspace := nsp, annotations := [], labels := [],
    secretType := "Opaque", data := [], finalizers := [], deletionTimestamp := false }

/-- C3: the diff returns as removed exactly the existing entries whose
namespace equals no desired entry's namespace, and as added exactly the
desired entries whose namespace equals no existing entry's namespace;
for existing namespaces {a,b,c} and desired {b,c,d} the result is exactly
({a}, {d}). -/
theorem c3_diff_by_namespace :
    (∀ (existing desired : List Secret) (e : Secret),
      e ∈ (diffSecrets existing desired).1 ↔
        e ∈ existing ∧ ∀ d ∈ desired, e.nspace ≠ d.nspace) ∧
    (∀ (existing desired : List Secret) (d : Secret),
      d ∈ (diffSecrets existing desired).2 ↔
        d ∈ desired ∧ ∀ e ∈ existing, e.nspace ≠ d.nspace) ∧
    diffSecrets [nsOnly "a", nsOnly "b", nsOnly "c"]
        [nsOnly "b", nsOnly "c", nsOnly "d"] =
      ([nsOnly "a"], [nsOnly "d"]) :=
  ⟨diffSecrets_fst_mem, diffSecrets_snd_mem, by decide⟩

theorem c3_diff_by_namespace_witness :
    nsOnly "a" ∈ (diffSecrets [nsOnly "a"] [nsOnly "b"]).1 :=
  (c3_diff_by_namespace.1 [nsOnly "a"] [nsOnly "b"] (nsOnly "a")).mpr
    ⟨by simp, by decide⟩

/-! ## Claim C6 -/

/-- Keys present in the accumulator survive the projection loop: entries
are only inserted, never removed. -/
theorem projectLoop_preserves_isSome (fl : List String) (entries : List (String × String))
    (acc d : List (String × String)) (k : String)
    (hk : (lookupKV acc k).isSome) (hp : projectLoop fl entries acc = .ok d) :
    (lookupKV d k).isSome := by
  induction entries generalizing acc with
  | nil =>
    simp only [projectLoop] at hp
    cases hp
    exact hk
  | cons e rest ih =>
    obtain ⟨ek, ev⟩ := e
    by_cases hfl : fl.isEmpty
    · rw [show projectLoop fl ((ek, ev) :: rest) acc = projectLoop fl rest (insertKV acc ek ev) by
        simp [projectLoop, hfl]] at hp
      exact ih _ (lookupKV_insertKV_isSome acc ek ev k hk) hp
    · rw [show projectLoop fl ((ek, ev) :: rest) acc =
          (match firstMatch fl ek with
           | .error e => .error e
           | .ok true => projectLoop fl rest (insertKV acc ek ev)
           | .ok false => projectLoop fl rest acc) by
        simp [projectLoop, hfl]] at hp
      cases hm : firstMatch fl ek with
      | error e => rw [hm] at hp; simp at hp
      | ok b =>
        rw [hm] at hp
        cases b with
        | true => exact ih _ (lookupKV_insertKV_isSome acc ek ev k hk) hp
        | false => exact ih _ hk hp

/-- C6: for a TLS-typed source and any key filter, the template's payload
— and hence the payload of every desired replica — contains entries for
the certificate and private-key fields (pre-seeded as empty values, with a
filter-admitted key overwriting its placeholder). -/
theorem c6_tls_placeholders (s t : Secret)
    (hty : s.secretType = SecretTypeTLS) (ht : buildTemplate s = .ok t) :
    (lookupKV t.data TLSCertKey).isSome ∧ (lookupKV t.data TLSPrivateKeyKey).isSome ∧
    ∀ (fl nss : List String) (srcNs : String) (L : List Secret),
      desiredList fl nss srcNs t = .ok L → ∀ d ∈ L,
        (lookupKV d.data TLSCertKey).isSome ∧ (lookupKV d.data TLSPrivateKeyKey).isSome := by
  unfold buildTemplate at ht
  rw [show (if s.secretType == SecretTypeTLS
        then [(TLSCertKey, ""), (TLSPrivateKeyKey, "")]
        else ([] : List (String × String))) = [(TLSCertKey, ""), (TLSPrivateKeyKey, "")] by
      simp [hty]] at ht
  dsimp only at ht
  cases hp : projectLoop (keyFiltersOf s) s.data [(TLSCertKey, ""), (TLSPrivateKeyKey, "")] with
  | error e => rw [hp] at ht; simp at ht
  | ok d =>
    rw [hp] at ht
    have htd : t.data = d := by
      cases ht
      rfl
    have hcert : (lookupKV d TLSCertKey).isSome :=
      projectLoop_preserves_isSome _ _ _ _ _ (by decide) hp
    have hkey : (lookupKV d TLSPrivateKeyKey).isSome :=
      projectLoop_preserves_isSome _ _ _ _ _ (by decide) hp
    refine ⟨htd ▸ hcert, htd ▸ hkey, ?_⟩
    intro fl nss srcNs L hL d' hd'
    obtain ⟨nsp, _, _, _, hrepl⟩ := (desiredList_ok_mem hL d').mp hd'
    have : d'.data = t.data := by rw [hrepl]
    rw [this, htd]
    exact ⟨hcert, hkey⟩

def srcC6 : Secret :=
  { name := "s", nspace := "default",
    annotations := [(AnnotationEnabledKey, "true"), (AnnotationReplicateKeysKey, "ca*")],
    labels := [], secretType := SecretTypeTLS,
    data := [("tls.crt", "CERT"), ("tls.key", "KEY"), ("ca.crt", "CA")],
    finalizers := [], deletionTimestamp := false }

def tmplC6 : Secret :=
  { name := "s", nspace := "", annotations := [],
    labels := [(managedByKey, "replikator")], secretType := SecretTypeTLS,
    data := [("tls.crt", ""), ("tls.key", ""), ("ca.crt", "CA")],
    finalizers := [], deletionTimestamp := false }

theorem c6_tls_placeholders_witness :
    (lookupKV tmplC6.data TLSCertKey).isSome ∧ (lookupKV tmplC6.data TLSPrivateKeyKey).isSome ∧
    ∀ (fl nss : List String) (srcNs : String) (L : List Secret),
      desiredList fl nss srcNs tmplC6 = .ok L → ∀ d ∈ L,
        (lookupKV d.data TLSCertKey).isSome ∧ (lookupKV d.data TLSPrivateKeyKey).isSome :=
  c6_tls_placeholders srcC6 tmplC6 rfl rfl

/-! ## Claim C1 -/

theorem goMatchAux_nil_pattern (f : Nat) (n : List Char) :
    goMatchAux f [] n = .ok n.isEmpty := by
  cases f <;> rfl

theorem filepathMatch_empty_pattern (k : String) :
    filepathMatch "" k = .ok k.data.isEmpty :=
  goMatchAux_nil_pattern _ _

theorem String_data_ne_nil {k : String} (h : k ≠ "") : k.data ≠ [] := by
  intro hd
  apply h
  cases k with
  | mk d => cases hd; rfl

theorem firstMatch_empty_pattern (k : String) (h : k ≠ "") :
    firstMatch [""] k = .ok false := by
  have hd : k.data.isEmpty = false := by
    cases hk : k.data with
    | nil => exact absurd hk (String_data_ne_nil h)
    | cons c rest => rfl
  simp only [firstMatch, filepathMatch_empty_pattern, hd]

theorem nsReplicate_empty_pattern (nsp : String) (h : nsp ≠ "") :
    nsReplicate [""] nsp = .ok false := by
  unfold nsReplicate
  rw [if_neg (by simp)]
  exact firstMatch_empty_pattern nsp h

theorem desiredList_all_rejected (fl : List String) (nss : List String)
    (srcNs : String) (tmpl : Secret)
    (h : ∀ nsp ∈ nss, nsp ≠ srcNs → nsReplicate fl nsp = .ok false) :
    desiredList fl nss srcNs tmpl = .ok [] := by
  induction nss with
  | nil => rfl
  | cons nsp rest ih =>
    have hrest := ih (fun n hm => h n (List.mem_cons_of_mem _ hm))
    by_cases hsrc : nsp = srcNs
    · simp [desiredList, hsrc, hrest]
    · simp [desiredList, hsrc, hrest, h nsp (by simp) hsrc]

def srcC1 : Secret :=
  { name := "s", nspace := "default",
    annotations := [(AnnotationEnabledKey, "true"),
                    (AnnotationReplicateKeysKey, ""),
                    (AnnotationReplicateToKey, "")],
    labels := [], secretType := "Opaque", data := [("k", "v")],
    finalizers := [], deletionTimestamp := false }

def srcC1abs : Secret :=
  { name := "s", nspace := "default",
    annotations := [(AnnotationEnabledKey, "true")],
    labels := [], secretType := "Opaque", data := [("k", "v")],
    finalizers := [], deletionTimestamp := false }

def tmplC1 : Secret :=
  { name := "s", nspace := "", annotations := [],
    labels := [(managedByKey, "replikator")], secretType := "Opaque",
    data := [], finalizers := [], deletionTimestamp := false }

/-- C1 is false on the code: Go's `strings.Split` never yields an empty
list for a non-empty separator — the empty whole string splits to `[""]`,
a one-element list holding the empty pattern.  On a concrete source with
present-but-empty `replicate-keys` and `replicate-to` annotations the
pattern lists are `[""]`, no data key is replicated (unlike the
absent-annotation source, which replicates all keys), and no namespace is
targeted. -/
theorem c1_counterexample :
    goSplitComma "" = [""] ∧ ([""] : List String) ≠ [] ∧
    keyFiltersOf srcC1 = [""] ∧ nsFiltersOf srcC1 = [""] ∧
    buildTemplate srcC1 = .ok tmplC1 ∧ lookupKV tmplC1.data "k" = none ∧
    desiredList (nsFiltersOf srcC1) ["default", "other"] "default" tmplC1 = .ok [] ∧
    (∃ t, buildTemplate srcC1abs = .ok t ∧ lookupKV t.data "k" = some "v") :=
  ⟨rfl, by decide, rfl, rfl, rfl, rfl, rfl, ⟨_, rfl, rfl⟩⟩

/-- C1 (amended): splitting the raw annotation string on `,` never yields
an empty list — an empty whole string yields the one-element list `[""]`.
Hence a present-but-empty `replicate-keys` (resp. `replicate-to`)
annotation derives the pattern list `[""]`, whose single empty pattern
matches only the empty string: no non-empty key is admitted and no
non-empty namespace is targeted, unlike the absent annotation which
matches everything. -/
theorem c1_empty_annotation_amended (s : Secret)
    (hk : lookupKV s.annotations AnnotationReplicateKeysKey = some "")
    (hn : lookupKV s.annotations AnnotationReplicateToKey = some "") :
    keyFiltersOf s = [""] ∧ nsFiltersOf s = [""] ∧
    (∀ k : String, k ≠ "" → firstMatch (keyFiltersOf s) k = .ok false) ∧
    (∀ (nss : List String) (srcNs : String) (tmpl : Secret),
      (∀ nsp ∈ nss, nsp ≠ "") →
      desiredList (nsFiltersOf s) nss srcNs tmpl = .ok []) := by
  have hkf : keyFiltersOf s = [""] := by
    unfold keyFiltersOf
    rw [hk]
    rfl
  have hnf : nsFiltersOf s = [""] := by
    unfold nsFiltersOf
    rw [hn]
    rfl
  refine ⟨hkf, hnf, ?_, ?_⟩
  · intro k hne
    rw [hkf]
    exact firstMatch_empty_pattern k hne
  · intro nss srcNs tmpl hns
    rw [hnf]
    exact desiredList_all_rejected _ _ _ _
      (fun nsp hm _ => nsReplicate_empty_pattern nsp (hns nsp hm))

theorem c1_empty_annotation_amended_witness :
    keyFiltersOf srcC1 = [""] ∧ nsFiltersOf srcC1 = [""] ∧
    (∀ k : String, k ≠ "" → firstMatch (keyFiltersOf srcC1) k = .ok false) ∧
    (∀ (nss : List String) (srcNs : String) (tmpl : Secret),
      (∀ nsp ∈ nss, nsp ≠ "") →
      desiredList (nsFiltersOf srcC1) nss srcNs tmpl = .ok []) :=
  c1_empty_annotation_amended srcC1 rfl rfl

/-! ## Claim C10 -/

/-- Field content of a successfully built template. -/
theorem buildTemplate_ok_elim {s t : Secret} (ht : buildTemplate s = .ok t) :
    t.annotations = [] ∧
    t.labels = insertKV (copyKVs [] s.labels) managedByKey "replikator" ∧
    t.name = s.name ∧ t.finalizers = [] ∧ t.deletionTimestamp = false := by
  unfold buildTemplate at ht
  dsimp only at ht
  cases hp : projectLoop (keyFiltersOf s) s.data
      (if s.secretType == SecretTypeTLS
       then [(TLSCertKey, ""), (TLSPrivateKeyKey, "")] else []) with
  | error e => rw [hp] at ht; simp at ht
  | ok d =>
    rw [hp] at ht
    have := Except.ok.inj ht
    rw [← this]
    exact ⟨rfl, rfl, rfl, rfl, rfl⟩

/-- C10: a replica template carries the source's labels plus the
managed-by marker and no annotations at all, and any stored object with
no annotations (such as a replica) reconciles at the gate: terminal
success, store unchanged, no writes — replication never cascades from
replicas. -/
theorem c10_replica_inert (s t : Secret) (ht : buildTemplate s = .ok t) :
    t.annotations = [] ∧
    lookupKV t.labels managedByKey = some "replikator" ∧
    ((s.labels.map Prod.fst).Nodup →
      ∀ k, k ≠ managedByKey → lookupKV t.labels k = lookupKV s.labels k) ∧
    (∀ (st : Store) (a b : String) (r : Secret),
      getSecret st a b = some r → r.annotations = [] →
      Reconcile st a b = (true, st, [])) := by
  obtain ⟨hann, hlab, -, -, -⟩ := buildTemplate_ok_elim ht
  refine ⟨hann, ?_, ?_, ?_⟩
  · rw [hlab]
    exact lookupKV_insertKV_self _ _ _
  · intro hnd k hk
    rw [hlab, lookupKV_insertKV_ne _ _ _ _ hk, lookupKV_copyKVs s.labels [] k hnd]
    cases lookupKV s.labels k <;> rfl
  · intro st a b r hget hrann
    refine Reconcile_disabled hget ?_
    unfold enabledOf
    rw [hrann]
    rfl

def tmplC9 : Secret :=
  { name := "s", nspace := "", annotations := [],
    labels := [(managedByKey, "replikator")], secretType := "Opaque",
    data := [], finalizers := [], deletionTimestamp := false }

theorem c10_replica_inert_witness :
    tmplC9.annotations = [] ∧
    lookupKV tmplC9.labels managedByKey = some "replikator" ∧
    ((srcC9.labels.map Prod.fst).Nodup →
      ∀ k, k ≠ managedByKey → lookupKV tmplC9.labels k = lookupKV srcC9.labels k) ∧
    (∀ (st : Store) (a b : String) (r : Secret),
      getSecret st a b = some r → r.annotations = [] →
      Reconcile st a b = (true, st, [])) :=
  c10_replica_inert srcC9 tmplC9 rfl

/-! ## Claim C8 -/

theorem finalizeStep_writes (st : Store) (s : Secret) :
    ∀ op ∈ (finalizeStep st s).2.2, ∃ a b fl, op = WriteOp.patchSource a b fl := by
  unfold finalizeStep
  split
  · simp
  · intro op hop
    simp only [List.mem_singleton] at hop
    exact ⟨_, _, _, hop⟩

/-- C8: if the projection step hits a malformed filter pattern (the key
filters while building the template, or the namespace filters while
building the desired set), the whole reconciliation attempt fails and no
replica delete or upsert of the converge step is performed: the only
writes possibly issued are the finalizer patch. -/
theorem c8_malformed_pattern_aborts (st : Store) (reqNs reqName : String) (s : Secret)
    (hget : getSecret st reqNs reqName = some s)
    (hen : enabledOf s = true) (hdel : s.deletionTimestamp = false)
    (herr : buildTemplate s = .error () ∨
      ∃ t, buildTemplate s = .ok t ∧
        desiredList (nsFiltersOf s) st.namespaces s.nspace t = .error ()) :
    ∃ st' w, Reconcile st reqNs reqName = (false, st', w) ∧
      ∀ op ∈ w, ∃ a b fl, op = WriteOp.patchSource a b fl := by
  rw [Reconcile_converge_shape hget hen hdel]
  obtain ⟨fl, hfs1, -⟩ := finalizeStep_fst st s
  have hw := finalizeStep_writes st s
  rcases herr with herr | ⟨t, hbt, hdes⟩
  · have hbt' : buildTemplate (finalizeStep st s).1 = .error () := by
      rw [hfs1, buildTemplate_set_finalizers]
      exact herr
    refine ⟨(finalizeStep st s).2.1, (finalizeStep st s).2.2, ?_, hw⟩
    unfold converge
    rw [hbt']
  · have hbt' : buildTemplate (finalizeStep st s).1 = .ok t := by
      rw [hfs1, buildTemplate_set_finalizers]
      exact hbt
    have hdes' : desiredList (nsFiltersOf (finalizeStep st s).1)
        (finalizeStep st s).2.1.namespaces (finalizeStep st s).1.nspace t = .error () := by
      rw [hfs1, nsFiltersOf_set_finalizers, finalizeStep_namespaces]
      exact hdes
    refine ⟨(finalizeStep st s).2.1, (finalizeStep st s).2.2, ?_, hw⟩
    unfold converge
    rw [hbt']
    dsimp only
    rw [hdes']

def srcC8 : Secret :=
  { name := "s", nspace := "default",
    annotations := [(AnnotationEnabledKey, "true"), (AnnotationReplicateKeysKey, "[")],
    labels := [], secretType := "Opaque", data := [("k", "v")],
    finalizers := [], deletionTimestamp := false }

def stC8 : Store :=
  { namespaces := ["default", "other"], secrets := [srcC8], deleteFaults := [] }

theorem c8_malformed_pattern_aborts_witness :
    ∃ st' w, Reconcile stC8 "default" "s" = (false, st', w) ∧
      ∀ op ∈ w, ∃ a b fl, op = WriteOp.patchSource a b fl :=
  c8_malformed_pattern_aborts stC8 "default" "s" srcC8 rfl rfl rfl (Or.inl rfl)

/-! ## Claim C2 -/

def srcC2 : Secret :=
  { name := "s", nspace := "default",
    annotations := [(AnnotationEnabledKey, "true")], labels := [],
    secretType := "Opaque", data := [("k", "v")],
    finalizers := [], deletionTimestamp := false }

def stC2 : Store :=
  { namespaces := ["default"], secrets := [srcC2], deleteFaults := [] }

def stC2run1 : Store := (Reconcile stC2 "default" "s").2.1

/-- The external edit between the two reconciliations: the user removes
the `enabled` annotation, everything else (notably the finalizer list
written by the first run) is preserved. -/
def stC2disabled : Store :=
  match getSecret stC2run1 "default" "s" with
  | some x => putSecret stC2run1 { x with annotations := [] }
  | none => stC2run1

def stC2run2 : Store := (Reconcile stC2disabled "default" "s").2.1

/-- C2 is false on the code: a source reconciled while enabled and then
reconciled after the `enabled` annotation is removed still carries the
finalizer afterwards (the gate returns before any finalizer logic), so
the claimed "finalizer present iff enabled and not deleted" invariant
fails in the disabled-but-previously-protected reachable state. -/
theorem c2_counterexample :
    (Reconcile stC2 "default" "s").1 = true ∧
    (Reconcile stC2disabled "default" "s").1 = true ∧
    ∃ x, getSecret stC2run2 "default" "s" = some x ∧
      FinalizerName ∈ x.finalizers ∧ enabledOf x = false :=
  ⟨rfl, rfl, ⟨_, rfl, by decide, rfl⟩⟩

/-- C2 (amended): one reconciliation of an enabled, undeleted source
leaves the finalizer present on it; a reconciliation of a disabled source
returns the store unchanged — so the finalizer, once attached, persists
even after the `enabled` annotation is removed, and is only cleared by
the deletion branch. -/
theorem c2_finalizer_amended :
    (∀ (st : Store) (reqNs reqName : String) (s : Secret),
      getSecret st reqNs reqName = some s → enabledOf s = true →
      s.deletionTimestamp = false →
      ∃ s', getSecret (Reconcile st reqNs reqName).2.1 reqNs reqName = some s' ∧
        FinalizerName ∈ s'.finalizers) ∧
    (∀ (st : Store) (reqNs reqName : String) (s : Secret),
      getSecret st reqNs reqName = some s → enabledOf s = false →
      (Reconcile st reqNs reqName).2.1 = st) := by
  constructor
  · intro st reqNs reqName s hget hen hdel
    obtain ⟨hns, hnm⟩ := getSecret_some hget
    rw [Reconcile_converge_shape hget hen hdel]
    obtain ⟨fl, hfs1, hmem⟩ := finalizeStep_fst st s
    have hget1 : getSecret (finalizeStep st s).2.1 reqNs reqName = some (finalizeStep st s).1 := by
      have := finalizeStep_getSecret st s (by rw [hns, hnm]; exact hget)
      rw [hns, hnm] at this
      exact this
    have hmem1 : FinalizerName ∈ (finalizeStep st s).1.finalizers := by
      rw [hfs1]
      exact hmem
    unfold converge
    cases hbt : buildTemplate (finalizeStep st s).1 with
    | error e => exact ⟨(finalizeStep st s).1, hget1, hmem1⟩
    | ok t =>
      dsimp only
      cases hds : desiredList (nsFiltersOf (finalizeStep st s).1)
          (finalizeStep st s).2.1.namespaces (finalizeStep st s).1.nspace t with
      | error e => exact ⟨(finalizeStep st s).1, hget1, hmem1⟩
      | ok desired =>
        dsimp only
        have hrem : ∀ r ∈ (diffSecrets (discover (finalizeStep st s).2.1 (finalizeStep st s).1) desired).1,
            ¬(r.nspace = reqNs ∧ r.name = reqName) := by
          intro r hr hcon
          have hre := (diffSecrets_fst_mem _ _ r).mp hr
          have := (discover_mem_props hre.1).1
          apply this
          rw [hcon.1, hfs1]
          exact hns.symm
        have hget2 : getSecret (deleteAll
            (diffSecrets (discover (finalizeStep st s).2.1 (finalizeStep st s).1) desired).1
            (finalizeStep st s).2.1 (finalizeStep st s).2.2).2.1 reqNs reqName =
            some (finalizeStep st s).1 := by
          rw [deleteAll_getSecret_other _ _ _ _ _ hrem]
          exact hget1
        rcases hda : deleteAll
            (diffSecrets (discover (finalizeStep st s).2.1 (finalizeStep st s).1) desired).1
            (finalizeStep st s).2.1 (finalizeStep st s).2.2 with ⟨ok1, st2, w2⟩
        rw [hda] at hget2
        cases ok1 with
        | false => exact ⟨(finalizeStep st s).1, hget2, hmem1⟩
        | true =>
          have hadd : ∀ d ∈ (diffSecrets (discover (finalizeStep st s).2.1 (finalizeStep st s).1) desired).2,
              ¬(d.nspace = reqNs ∧ d.name = reqName) := by
            intro d hd hcon
            have hde := (diffSecrets_snd_mem _ _ d).mp hd
            obtain ⟨nsp, _, hne, _, hrepl⟩ := (desiredList_ok_mem hds d).mp hde.1
            apply hne
            have hdn : d.nspace = nsp := by rw [hrepl]
            rw [← hdn, hcon.1, hfs1]
            exact hns.symm
          refine ⟨(finalizeStep st s).1, ?_, hmem1⟩
          show getSecret (upsertAll _ st2 w2).1 reqNs reqName = _
          rw [upsertAll_get_not_mem _ _ _ _ _ hadd]
          exact hget2
  · intro st reqNs reqName s hget hdis
    rw [Reconcile_disabled hget hdis]

theorem c2_finalizer_amended_witness :
    (∃ s', getSecret (Reconcile stC2 "default" "s").2.1 "default" "s" = some s' ∧
      FinalizerName ∈ s'.finalizers) ∧
    (Reconcile stC2disabled "default" "s").2.1 = stC2disabled := by
  constructor
  · exact c2_finalizer_amended.1 stC2 "default" "s" srcC2 rfl rfl rfl
  · exact c2_finalizer_amended.2 stC2disabled "default" "s"
      { srcC2 with finalizers := [FinalizerName], annotations := [] } rfl rfl

/-! ## Claim C7 -/

/-- C7: reconciling an enabled source that carries a deletion timestamp
(and the finalizer) first deletes every discovered replica and only then
issues the finalizer-removal patch, as the final write.  Not-found errors
on the deletes are tolerated; if some replica delete fails with any other
error, the attempt aborts with the finalizer still present and no
finalizer write issued. -/
theorem c7_deletion_teardown (st : Store) (reqNs reqName : String) (s : Secret)
    (hget : getSecret st reqNs reqName = some s)
    (hen : enabledOf s = true)
    (hdel : s.deletionTimestamp = true)
    (hfin : FinalizerName ∈ s.finalizers) :
    ((∀ r ∈ discover st s, lookupFault st.deleteFaults r.nspace r.name = none) →
      ∃ st' w', Reconcile st reqNs reqName =
          (true, st', w' ++ [WriteOp.patchSource reqNs reqName
            (s.finalizers.filter (fun f => f != FinalizerName))]) ∧
        (∀ op ∈ w', ∃ a b, op = WriteOp.deleteReplica a b) ∧
        (∀ r ∈ discover st s, getSecret st' r.nspace r.name = none) ∧
        (∀ s', getSecret st' reqNs reqName = some s' → FinalizerName ∉ s'.finalizers)) ∧
    ((∀ r ∈ discover st s, lookupFault st.deleteFaults r.nspace r.name ≠ some .other) →
      (Reconcile st reqNs reqName).1 = true) ∧
    ((∃ r ∈ discover st s, lookupFault st.deleteFaults r.nspace r.name = some .other) →
      (Reconcile st reqNs reqName).1 = false ∧
      getSecret (Reconcile st reqNs reqName).2.1 reqNs reqName = some s ∧
      FinalizerName ∈ s.finalizers) := by
  obtain ⟨hns, hnm⟩ := getSecret_some hget
  have hsh : Reconcile st reqNs reqName = teardown st s (discover st s) [] := by
    rw [Reconcile_teardown_shape hget hen hdel, finalizeStep_already st s hfin]
  have hkeys : ∀ r ∈ discover st s, ¬(r.nspace = reqNs ∧ r.name = reqName) := by
    intro r hr hcon
    exact (discover_mem_props hr).1 (hcon.1.trans hns.symm)
  refine ⟨?_, ?_, ?_⟩
  · intro hf
    rw [hsh]
    unfold teardown
    rcases hda : deleteAll (discover st s) st [] with ⟨ok1, st2, w2⟩
    have hok : ok1 = true := by
      have := deleteAll_ok_of_no_faults (discover st s) st [] hf
      rw [hda] at this
      exact this
    subst hok
    dsimp only
    rw [if_pos hfin]
    obtain ⟨w', hw', hall⟩ := deleteAll_writes (discover st s) st []
    rw [hda] at hw'
    refine ⟨putSecretGC st2
        { s with finalizers := s.finalizers.filter (fun f => f != FinalizerName) },
      w', ?_, hall, ?_, ?_⟩
    · have hw2 : w2 = w' := by simpa using hw'
      rw [hw2, hns, hnm]
    · intro r hr
      have hrne : ¬(r.nspace = reqNs ∧ r.name = reqName) := hkeys r hr
      have h2 : getSecret st2 r.nspace r.name = none := by
        have := deleteAll_getSecret_mem (discover st s) st [] r.nspace r.name hf
          ⟨r, hr, rfl, rfl⟩
        rw [hda] at this
        exact this
      rw [getSecret_putSecretGC_ne st2 _ r.nspace r.name ?hne]
      · exact h2
      case hne =>
        rintro ⟨h1, _⟩
        exact (discover_mem_props hr).1 (by simpa using h1)
    · intro s' hs'
      by_cases hgc : (({ s with finalizers := s.finalizers.filter (fun f => f != FinalizerName) } : Secret)).deletionTimestamp &&
          (({ s with finalizers := s.finalizers.filter (fun f => f != FinalizerName) } : Secret)).finalizers.isEmpty
      · unfold putSecretGC at hs'
        rw [if_pos hgc, ← hns, ← hnm] at hs'
        exact Option.noConfusion
          ((getSecretL_removeSecretL_self st2.secrets s.nspace s.name).symm.trans hs')
      · unfold putSecretGC at hs'
        rw [if_neg hgc, ← hns, ← hnm] at hs'
        have h0 := getSecret_putSecret_self st2
          ({ s with finalizers := s.finalizers.filter (fun f => f != FinalizerName) } : Secret)
        have hsx := Option.some.inj (h0.symm.trans hs')
        rw [← hsx]
        simp [List.mem_filter]
  · intro hf
    rw [hsh]
    unfold teardown
    rcases hda : deleteAll (discover st s) st [] with ⟨ok1, st2, w2⟩
    have hok : ok1 = true := by
      have := deleteAll_ok_of_no_transient (discover st s) st [] hf
      rw [hda] at this
      exact this
    subst hok
    dsimp only
    rw [if_pos hfin]
  · intro hf
    rw [hsh]
    unfold teardown
    rcases hda : deleteAll (discover st s) st [] with ⟨ok1, st2, w2⟩
    have hok : ok1 = false := by
      have := deleteAll_false_of_fault (discover st s) st [] hf
      rw [hda] at this
      exact this
    subst hok
    refine ⟨rfl, ?_, hfin⟩
    have := deleteAll_getSecret_other (discover st s) st [] reqNs reqName hkeys
    rw [hda] at this
    dsimp only at this ⊢
    rw [this]
    exact hget

def srcC7 : Secret :=
  { name := "s", nspace := "default",
    annotations := [(AnnotationEnabledKey, "true")], labels := [],
    secretType := "Opaque", data := [("k", "v")],
    finalizers := [FinalizerName], deletionTimestamp := true }

def stC7 : Store :=
  { namespaces := ["default", "a", "b"],
    secrets := [srcC7,
      { srcC7 with nspace := "a", annotations := [], finalizers := [], deletionTimestamp := false },
      { srcC7 with nspace := "b", annotations := [], finalizers := [], deletionTimestamp := false }],
    deleteFaults := [] }

theorem c7_deletion_teardown_witness :
    ∃ st' w', Reconcile stC7 "default" "s" =
        (true, st', w' ++ [WriteOp.patchSource "default" "s"
          (srcC7.finalizers.filter (fun f => f != FinalizerName))]) ∧
      (∀ op ∈ w', ∃ a b, op = WriteOp.deleteReplica a b) ∧
      (∀ r ∈ discover stC7 srcC7, getSecret st' r.nspace r.name = none) ∧
      (∀ s', getSecret st' "default" "s" = some s' → FinalizerName ∉ s'.finalizers) :=
  (c7_deletion_teardown stC7 "default" "s" srcC7 rfl rfl rfl (by decide)).1 (by decide)

/-! ## Claim C5 -/

/-- C5 (amended): if one reconciliation of a source that is not marked
for deletion completes successfully on a fault-free store, a second
reconciliation with no intervening external change succeeds and issues no
store writes. -/
theorem c5_second_run_amended (st : Store) (reqNs reqName : String)
    (hdel : ∀ s, getSecret st reqNs reqName = some s → s.deletionTimestamp = false)
    (hf : st.deleteFaults = [])
    (hok : (Reconcile st reqNs reqName).1 = true) :
    Reconcile (Reconcile st reqNs reqName).2.1 reqNs reqName =
      (true, (Reconcile st reqNs reqName).2.1, []) := by
  cases hget : getSecret st reqNs reqName with
  | none =>
    rw [Reconcile_not_found hget]
    exact Reconcile_not_found hget
  | some s =>
    cases hen : enabledOf s with
    | false =>
      rw [Reconcile_disabled hget hen]
      exact Reconcile_disabled hget hen
    | true =>
      have hdelts : s.deletionTimestamp = false := hdel s hget
      obtain ⟨hns, hnm⟩ := getSecret_some hget
      obtain ⟨fl, hfs1, hmemfl⟩ := finalizeStep_fst st s
      have hfs1ns : (finalizeStep st s).1.nspace = s.nspace := by rw [hfs1]
      have hfs1nm : (finalizeStep st s).1.name = s.name := by rw [hfs1]
      have hfs1del : (finalizeStep st s).1.deletionTimestamp = false := by
        rw [finalizeStep_deletionTimestamp]
        exact hdelts
      have hfs1en : enabledOf (finalizeStep st s).1 = true := by
        rw [hfs1, enabledOf_set_finalizers]
        exact hen
      have hfs1fin : FinalizerName ∈ (finalizeStep st s).1.finalizers := by
        rw [hfs1]
        exact hmemfl
      have hnsp21 : (finalizeStep st s).2.1.namespaces = st.namespaces :=
        finalizeStep_namespaces st s
      have hflt21 : (finalizeStep st s).2.1.deleteFaults = [] := by
        rw [finalizeStep_deleteFaults]
        exact hf
      have hget1 : getSecret (finalizeStep st s).2.1 reqNs reqName =
          some (finalizeStep st s).1 := by
        have h0 := finalizeStep_getSecret st s (by rw [hns, hnm]; exact hget)
        rw [hns, hnm] at h0
        exact h0
      have hsh1 := Reconcile_converge_shape hget hen hdelts
      rw [hsh1] at hok ⊢
      unfold converge at hok ⊢
      cases hbt : buildTemplate (finalizeStep st s).1 with
      | error e => rw [hbt] at hok; simp at hok
      | ok tmpl =>
        rw [hbt] at hok
        dsimp only at hok ⊢
        cases hds : desiredList (nsFiltersOf (finalizeStep st s).1)
            (finalizeStep st s).2.1.namespaces (finalizeStep st s).1.nspace tmpl with
        | error e => rw [hds] at hok; simp at hok
        | ok desired =>
          rw [hds] at hok
          dsimp only at hok ⊢
          rcases hda : deleteAll
              (diffSecrets (discover (finalizeStep st s).2.1 (finalizeStep st s).1) desired).1
              (finalizeStep st s).2.1 (finalizeStep st s).2.2 with ⟨okd, st2, w2⟩
          rw [hda] at hok
          cases okd with
          | false => simp at hok
          | true =>
            dsimp only at hok ⊢
            -- basic facts about the run-1 post-state
            have htname : tmpl.name = s.name := by
              rw [(buildTemplate_ok_elim hbt).2.2.1, hfs1nm]
            have hst2 : st2 = (deleteAll
                (diffSecrets (discover (finalizeStep st s).2.1 (finalizeStep st s).1) desired).1
                (finalizeStep st s).2.1 (finalizeStep st s).2.2).2.1 := by
              rw [hda]
            have hfault2 : ∀ (r : Secret),
                lookupFault (finalizeStep st s).2.1.deleteFaults r.nspace r.name = none := by
              intro r
              rw [hflt21]
              rfl
            -- every desired / added element is the template at some namespace
            have hdes_elem : ∀ d ∈ desired, ∃ nsp, nsp ∈ st.namespaces ∧ nsp ≠ s.nspace ∧
                nsReplicate (nsFiltersOf (finalizeStep st s).1) nsp = .ok true ∧
                d = { tmpl with nspace := nsp } := by
              intro d hd
              obtain ⟨nsp, hm, hne, hadm, hrepl⟩ := (desiredList_ok_mem hds d).mp hd
              rw [hnsp21] at hm
              rw [hfs1ns] at hne
              exact ⟨nsp, hm, hne, hadm, hrepl⟩
            have hdes_ns : ∀ d ∈ desired, d.nspace ≠ s.nspace ∧ d.name = tmpl.name := by
              intro d hd
              obtain ⟨nsp, _, hne, _, hrepl⟩ := hdes_elem d hd
              constructor
              · rw [hrepl]
                exact hne
              · rw [hrepl]
            -- existing replicas
            have hex_props : ∀ e ∈ discover (finalizeStep st s).2.1 (finalizeStep st s).1,
                e.nspace ≠ s.nspace ∧ e.name = s.name ∧ e.nspace ∈ st.namespaces ∧
                getSecret (finalizeStep st s).2.1 e.nspace s.name = some e := by
              intro e he
              obtain ⟨h1, h2, h3, h4⟩ := discover_mem_props he
              rw [hfs1ns] at h1
              rw [hfs1nm] at h2
              rw [hnsp21] at h3
              rw [hfs1nm] at h4
              exact ⟨h1, h2, h3, h4⟩
            -- the source object is untouched by run 1's converge writes
            have hsource2 : getSecret st2 reqNs reqName = some (finalizeStep st s).1 := by
              rw [hst2, deleteAll_getSecret_other]
              · exact hget1
              · intro r hr hcon
                have hre := (diffSecrets_fst_mem _ _ r).mp hr
                exact (hex_props r hre.1).1 (hcon.1.trans hns.symm)
            have hsource3 : getSecret (upsertAll
                (diffSecrets (discover (finalizeStep st s).2.1 (finalizeStep st s).1) desired).2
                st2 w2).1 reqNs reqName = some (finalizeStep st s).1 := by
              rw [upsertAll_get_not_mem]
              · exact hsource2
              · intro d hd hcon
                have hde := (diffSecrets_snd_mem _ _ d).mp hd
                exact (hdes_ns d hde.1).1 (hcon.1.trans hns.symm)
            -- run 2 reaches the converge step with the same template and
            -- desired set
            have hns3 : (upsertAll
                (diffSecrets (discover (finalizeStep st s).2.1 (finalizeStep st s).1) desired).2
                st2 w2).1.namespaces = st.namespaces := by
              rw [upsertAll_namespaces, hst2, deleteAll_namespaces, hnsp21]
            have hsh2 := Reconcile_converge_shape hsource3 hfs1en hfs1del
            rw [hsh2, finalizeStep_already _ _ hfs1fin]
            dsimp only
            unfold converge
            rw [hbt]
            dsimp only
            rw [show desiredList (nsFiltersOf (finalizeStep st s).1)
                (upsertAll (diffSecrets (discover (finalizeStep st s).2.1 (finalizeStep st s).1)
                  desired).2 st2 w2).1.namespaces (finalizeStep st s).1.nspace tmpl =
                desiredList (nsFiltersOf (finalizeStep st s).1)
                  (finalizeStep st s).2.1.namespaces (finalizeStep st s).1.nspace tmpl by
              rw [hns3, hnsp21]]
            rw [hds]
            dsimp only
            -- characterize run 2's discovered replicas: exactly the desired
            -- namespaces
            have hchar_some : ∀ d ∈ desired, ∃ y, getSecret (upsertAll
                (diffSecrets (discover (finalizeStep st s).2.1 (finalizeStep st s).1) desired).2
                st2 w2).1 d.nspace s.name = some y := by
              intro d hd
              obtain ⟨nsp, hmem, hnne, hadm, hrepl⟩ := hdes_elem d hd
              by_cases hadded : ∃ a ∈ (diffSecrets
                  (discover (finalizeStep st s).2.1 (finalizeStep st s).1) desired).2,
                  a.nspace = d.nspace
              · obtain ⟨a, ham, hans⟩ := hadded
                have hade := (diffSecrets_snd_mem _ _ a).mp ham
                have haname : a.name = s.name := by
                  rw [(hdes_ns a hade.1).2, htname]
                have huniq : ∀ a' ∈ (diffSecrets
                    (discover (finalizeStep st s).2.1 (finalizeStep st s).1) desired).2,
                    a'.nspace = a.nspace → a'.name = a.name → a' = a := by
                  intro a' ham' hns' _
                  have hade' := (diffSecrets_snd_mem _ _ a').mp ham'
                  obtain ⟨n1, _, _, _, hr1⟩ := hdes_elem a hade.1
                  obtain ⟨n2, _, _, _, hr2⟩ := hdes_elem a' hade'.1
                  have : n2 = n1 := by
                    have e1 : a.nspace = n1 := by rw [hr1]
                    have e2 : a'.nspace = n2 := by rw [hr2]
                    rw [e2, e1] at hns'
                    exact hns'
                  rw [hr1, hr2, this]
                have := upsertAll_get_mem _ st2 w2 a ham huniq
                refine ⟨a, ?_⟩
                rw [← hans, ← haname]
                exact this
              · have hnotadded : d ∉ (diffSecrets
                    (discover (finalizeStep st s).2.1 (finalizeStep st s).1) desired).2 := by
                  intro hcon
                  exact hadded ⟨d, hcon, rfl⟩
                have hex : ∃ e ∈ discover (finalizeStep st s).2.1 (finalizeStep st s).1,
                    e.nspace = d.nspace := by
                  by_contra hcon
                  push_neg at hcon
                  exact hnotadded ((diffSecrets_snd_mem _ _ d).mpr
                    ⟨hd, fun e he hh => hcon e he hh⟩)
                obtain ⟨e, hemem, hens⟩ := hex
                obtain ⟨hene, hen2, _, heget⟩ := hex_props e hemem
                have hnorem : ∀ r ∈ (diffSecrets
                    (discover (finalizeStep st s).2.1 (finalizeStep st s).1) desired).1,
                    ¬(r.nspace = e.nspace ∧ r.name = s.name) := by
                  intro r hr hcon
                  have hre := (diffSecrets_fst_mem _ _ r).mp hr
                  exact hre.2 d hd (by rw [hcon.1, hens])
                have hnoadd : ∀ a ∈ (diffSecrets
                    (discover (finalizeStep st s).2.1 (finalizeStep st s).1) desired).2,
                    ¬(a.nspace = e.nspace ∧ a.name = s.name) := by
                  intro a ha hcon
                  exact hadded ⟨a, ha, by rw [hcon.1, hens]⟩
                refine ⟨e, ?_⟩
                rw [← hens]
                rw [upsertAll_get_not_mem _ _ _ _ _ hnoadd, hst2,
                  deleteAll_getSecret_other _ _ _ _ _ hnorem]
                exact heget
            have hchar_none : ∀ nsp, nsp ∈ st.namespaces → nsp ≠ s.nspace →
                (∀ d ∈ desired, d.nspace ≠ nsp) →
                getSecret (upsertAll
                  (diffSecrets (discover (finalizeStep st s).2.1 (finalizeStep st s).1) desired).2
                  st2 w2).1 nsp s.name = none := by
              intro nsp hmem hnne hnodes
              have hnoadd : ∀ a ∈ (diffSecrets
                  (discover (finalizeStep st s).2.1 (finalizeStep st s).1) desired).2,
                  ¬(a.nspace = nsp ∧ a.name = s.name) := by
                intro a ha hcon
                have hade := (diffSecrets_snd_mem _ _ a).mp ha
                exact hnodes a hade.1 hcon.1
              rw [upsertAll_get_not_mem _ _ _ _ _ hnoadd, hst2]
              cases hg1 : getSecret (finalizeStep st s).2.1 nsp s.name with
              | none =>
                have hnorem : ∀ r ∈ (diffSecrets
                    (discover (finalizeStep st s).2.1 (finalizeStep st s).1) desired).1,
                    ¬(r.nspace = nsp ∧ r.name = s.name) := by
                  intro r hr hcon
                  have hre := (diffSecrets_fst_mem _ _ r).mp hr
                  have := (hex_props r hre.1).2.2.2
                  rw [hcon.1] at this
                  rw [this] at hg1
                  cases hg1
                rw [deleteAll_getSecret_other _ _ _ _ _ hnorem]
                exact hg1
              | some y =>
                have hymem : y ∈ discover (finalizeStep st s).2.1 (finalizeStep st s).1 := by
                  rw [discover_mem]
                  refine ⟨nsp, ?_, ?_, ?_⟩
                  · rw [hnsp21]
                    exact hmem
                  · rw [hfs1ns]
                    exact hnne
                  · rw [hfs1nm]
                    exact hg1
                have hyns : y.nspace = nsp := (getSecret_some hg1).1
                have hyname : y.name = s.name := (getSecret_some hg1).2
                have hyrem : y ∈ (diffSecrets
                    (discover (finalizeStep st s).2.1 (finalizeStep st s).1) desired).1 := by
                  rw [diffSecrets_fst_mem]
                  refine ⟨hymem, ?_⟩
                  intro d hd hcon
                  exact hnodes d hd (by rw [← hcon, hyns])
                apply deleteAll_getSecret_mem
                · intro r _
                  exact hfault2 r
                · exact ⟨y, hyrem, hyns, hyname⟩
            -- the second diff is empty in both directions
            have hrem2 : (diffSecrets (discover (upsertAll
                (diffSecrets (discover (finalizeStep st s).2.1 (finalizeStep st s).1) desired).2
                st2 w2).1 (finalizeStep st s).1) desired).1 = [] := by
              rw [List.eq_nil_iff_forall_not_mem]
              intro e he
              have hep := (diffSecrets_fst_mem _ _ e).mp he
              obtain ⟨hene, hen2, hemem, heget⟩ : e.nspace ≠ s.nspace ∧ e.name = s.name ∧
                  e.nspace ∈ st.namespaces ∧
                  getSecret (upsertAll
                    (diffSecrets (discover (finalizeStep st s).2.1 (finalizeStep st s).1) desired).2
                    st2 w2).1 e.nspace s.name = some e := by
                obtain ⟨h1, h2, h3, h4⟩ := discover_mem_props hep.1
                rw [hfs1ns] at h1
                rw [hfs1nm] at h2
                rw [hns3] at h3
                rw [hfs1nm] at h4
                exact ⟨h1, h2, h3, h4⟩
              have := hchar_none e.nspace hemem hene
                (fun d hd hcon => hep.2 d hd hcon.symm)
              rw [this] at heget
              cases heget
            have hadd2 : (diffSecrets (discover (upsertAll
                (diffSecrets (discover (finalizeStep st s).2.1 (finalizeStep st s).1) desired).2
                st2 w2).1 (finalizeStep st s).1) desired).2 = [] := by
              rw [List.eq_nil_iff_forall_not_mem]
              intro d hd
              have hdp := (diffSecrets_snd_mem _ _ d).mp hd
              obtain ⟨y, hy⟩ := hchar_some d hdp.1
              have hymem : y ∈ discover (upsertAll
                  (diffSecrets (discover (finalizeStep st s).2.1 (finalizeStep st s).1) desired).2
                  st2 w2).1 (finalizeStep st s).1 := by
                rw [discover_mem]
                refine ⟨d.nspace, ?_, ?_, ?_⟩
                · rw [hns3]
                  obtain ⟨nsp, hmem, _, _, hrepl⟩ := hdes_elem d hdp.1
                  rw [hrepl]
                  exact hmem
                · rw [hfs1ns]
                  exact (hdes_ns d hdp.1).1
                · rw [hfs1nm]
                  exact hy
              exact hdp.2 y hymem (getSecret_some hy).1
            rw [hrem2, hadd2]
            rfl

def srcC5 : Secret :=
  { name := "s", nspace := "default",
    annotations := [(AnnotationEnabledKey, "true")], labels := [],
    secretType := "Opaque", data := [("k", "v")],
    finalizers := ["other.io/keep"], deletionTimestamp := true }

def stC5 : Store :=
  { namespaces := ["default"], secrets := [srcC5], deleteFaults := [] }

/-- C5 is false on the code as universally stated: an enabled source that
carries a deletion timestamp together with a foreign finalizer survives
its own teardown, so the next reconciliation re-adds and re-removes this
controller's finalizer — the first run succeeds, no external change
happens, and the second run still issues two patch writes. -/
theorem c5_counterexample :
    (Reconcile stC5 "default" "s").1 = true ∧
    (Reconcile (Reconcile stC5 "default" "s").2.1 "default" "s").2.2 ≠ [] :=
  ⟨rfl, by decide⟩

theorem c5_second_run_amended_witness :
    Reconcile (Reconcile stC2 "default" "s").2.1 "default" "s" =
      (true, (Reconcile stC2 "default" "s").2.1, []) :=
  c5_second_run_amended stC2 "default" "s"
    (fun s h => by cases h; rfl) rfl rfl

end Replikator
